import Mathlib

/-!
Verification of the WHR (Whole History Rating) core: a shallow embedding of
the TypeScript sources (player.ts, player-day.ts, game.ts, types.ts, whr.ts)
over exact real arithmetic, together with proofs of the specified properties
of the Newton optimizer, the tridiagonal solver, the covariance pass, the
Bradley-Terry probabilities and the interpolation formulas.
-/

open scoped Classical

noncomputable section

/-- Error kinds surfaced by the WHR core: the `UnstableRatingException` of
types.ts, and the missing-player-day and not-in-game `Error`s thrown by
`Game.opponentsAdjustedGamma` in game.ts. -/
inductive WhrError where
  | unstableRating
  | missingDay
  | notInGame
  deriving DecidableEq

/-- Bradley-Terry game term with constants a, b, c, d (types.ts `GameTerm`). -/
structure GameTerm where
  a : ℝ
  b : ℝ
  c : ℝ
  d : ℝ

/-- One player's rating state on one day (player-day.ts `PlayerDay`).
Games attached to the day are represented by the opponent adjusted gamma each
one resolves to at evaluation time (`game.opponentsAdjustedGamma(this.player)`
inside `wonGameTerms` / `lostGameTerms`); the mutable cross-object references
of the TypeScript code are resolved to those real values in this embedding. -/
structure PlayerDay where
  day : ℝ
  r : ℝ
  isFirstDay : Bool
  uncertainty : ℝ
  wonOtherGammas : List ℝ
  lostOtherGammas : List ℝ

/-- Field defaults of the `PlayerDay` constructor: r = 0 (gamma = 1),
`isFirstDay` false, initial uncertainty sqrt 5, no games. -/
instance : Inhabited PlayerDay :=
  ⟨⟨0, 0, false, Real.sqrt 5, [], []⟩⟩

/-- Gamma value from the natural rating (player-day.ts `get gamma`). -/
def PlayerDay.gamma (pd : PlayerDay) : ℝ := Real.exp pd.r

/-- Elo rating from the natural rating (player-day.ts `get elo`). -/
def PlayerDay.elo (pd : PlayerDay) : ℝ := pd.r * 400 / Real.log 10

/-- Won-game likelihood terms (player-day.ts `get wonGameTerms`): one
`(1, 0, 1, otherGamma)` term per won game, plus the virtual won term
`(1, 0, 1, 1)` on the first day. -/
def PlayerDay.wonGameTerms (pd : PlayerDay) : List GameTerm :=
  pd.wonOtherGammas.map (fun og => ⟨1, 0, 1, og⟩) ++
    (if pd.isFirstDay then [⟨1, 0, 1, 1⟩] else [])

/-- Lost-game likelihood terms (player-day.ts `get lostGameTerms`): one
`(0, otherGamma, 1, otherGamma)` term per lost game, plus the virtual lost
term `(0, 1, 1, 1)` on the first day. -/
def PlayerDay.lostGameTerms (pd : PlayerDay) : List GameTerm :=
  pd.lostOtherGammas.map (fun og => ⟨0, og, 1, og⟩) ++
    (if pd.isFirstDay then [⟨0, 1, 1, 1⟩] else [])

/-- First derivative of the day's log likelihood with respect to r
(player-day.ts `get logLikelihoodDerivative`). -/
def PlayerDay.logLikelihoodDerivative (pd : PlayerDay) : ℝ :=
  pd.wonGameTerms.length -
    pd.gamma * ((pd.wonGameTerms ++ pd.lostGameTerms).map
      (fun t => t.c / (t.c * pd.gamma + t.d))).sum

/-- Second derivative of the day's log likelihood with respect to r
(player-day.ts `get logLikelihoodSecondDerivative`). -/
def PlayerDay.logLikelihoodSecondDerivative (pd : PlayerDay) : ℝ :=
  -pd.gamma * ((pd.wonGameTerms ++ pd.lostGameTerms).map
    (fun t => t.c * t.d / (t.c * pd.gamma + t.d) ^ 2)).sum

/-- One-dimensional Newton step for a single-day trajectory
(player-day.ts `updateBy1DNewtonsMethod`): skip when the second derivative
magnitude is below 1e-10, otherwise r := r - dlogp / d2logp. -/
def PlayerDay.updateBy1DNewtonsMethod (pd : PlayerDay) : PlayerDay :=
  if |pd.logLikelihoodSecondDerivative| < 1e-10 then pd
  else { pd with r := pd.r - pd.logLikelihoodDerivative / pd.logLikelihoodSecondDerivative }

/-- A game between two players (game.ts `Game`), with the player-day
references of the two sides optional until attached, and the handicap
resolved to the real value `handicapProc` produces at evaluation time. -/
structure Game where
  day : ℝ
  white : String
  black : String
  handicap : ℝ
  wpd : Option PlayerDay
  bpd : Option PlayerDay

/-- Opponent Elo with the black advantage applied: the branch structure of
game.ts `opponentsAdjustedGamma` that selects the opposing side's player day
and throws when it is missing or when the player is not in the game. -/
def Game.opponentElo (g : Game) (playerName : String) : Except WhrError ℝ :=
  let blackAdvantage := g.handicap
  if playerName = g.white then
    match g.bpd with
    | none => .error .missingDay
    | some bpd => .ok (bpd.elo + blackAdvantage)
  else if playerName = g.black then
    match g.wpd with
    | none => .error .missingDay
    | some wpd => .ok (wpd.elo - blackAdvantage)
  else .error .notInGame

/-- Opponent's adjusted gamma (game.ts `opponentsAdjustedGamma`): rval =
10 ^ (opponentElo / 400), raising `UnstableRatingException` when rval is zero
(the non-finite and NaN guards of the float code have no exact-real
counterpart; the zero guard is kept and shown unreachable). -/
def Game.opponentsAdjustedGamma (g : Game) (playerName : String) : Except WhrError ℝ := do
  let oe ← g.opponentElo playerName
  let rval := (10 : ℝ) ^ (oe / 400)
  if rval = 0 then .error .unstableRating else pure rval

/-- Bradley-Terry white win probability (game.ts `get whiteWinProbability`). -/
def Game.whiteWinProbability (g : Game) : Except WhrError ℝ :=
  match g.wpd with
  | none => .error .missingDay
  | some wpd => do
      let og ← g.opponentsAdjustedGamma g.white
      pure (wpd.gamma / (wpd.gamma + og))

/-- Bradley-Terry black win probability (game.ts `get blackWinProbability`). -/
def Game.blackWinProbability (g : Game) : Except WhrError ℝ :=
  match g.bpd with
  | none => .error .missingDay
  | some bpd => do
      let og ← g.opponentsAdjustedGamma g.black
      pure (bpd.gamma / (bpd.gamma + og))

/-- Projection of a game as `Player.addGame` consumes it: the day it was
played, whether this player won it, and the opponent adjusted gamma it
contributes to the day's likelihood terms. -/
structure GameInfo where
  day : ℝ
  won : Bool
  otherGamma : ℝ

/-- Attach a game to a day (player-day.ts `addGame`): push onto the won or
lost list according to the winner and the side this player plays. -/
def PlayerDay.addGameInfo (pd : PlayerDay) (g : GameInfo) : PlayerDay :=
  if g.won then { pd with wonOtherGammas := pd.wonOtherGammas ++ [g.otherGamma] }
  else { pd with lostOtherGammas := pd.lostOtherGammas ++ [g.otherGamma] }

/-- A player (player.ts `Player`): the ordered list of days and the
converted Wiener variance rate w2 (natural-rating scale). -/
structure Player where
  name : String
  days : List PlayerDay
  w2 : ℝ

/-- Add a game to a player (player.ts `addGame`): reuse the last day when it
has the same day value, otherwise append a fresh day whose gamma is seeded
from the previous day (gamma 1 on a first day) and which is the anchor
exactly when the days list was empty. -/
def Player.addGame (p : Player) (g : GameInfo) : Player :=
  if p.days.isEmpty = true ∨ (p.days.getLast?.getD default).day ≠ g.day then
    { p with days := p.days ++
        [(PlayerDay.mk g.day
            (if p.days.isEmpty = true then Real.log 1
             else Real.log (p.days.getLast?.getD default).gamma)
            p.days.isEmpty (Real.sqrt 5) [] []).addGameInfo g] }
  else
    { p with days := p.days.dropLast ++ [(p.days.getLast?.getD default).addGameInfo g] }

/-- Wiener process variances between consecutive days (player.ts
`computeSigma2`): sigma2[i] = |day[i+1] - day[i]| * w2 for i = 0 .. n-2. -/
def Player.computeSigma2 (p : Player) : List ℝ :=
  (List.range (p.days.length - 1)).map
    (fun i => |(p.days.getD (i + 1) default).day - (p.days.getD i default).day| * p.w2)

/-- Entry (row, col) of the tridiagonal Hessian built by player.ts `hessian`;
the code materializes the n-by-n array whose entries this function computes. -/
def hessianEntry (days : List PlayerDay) (sigma2 : List ℝ) (row col : ℕ) : ℝ :=
  if row = col then
    (days.getD row default).logLikelihoodSecondDerivative +
      ((if row < days.length - 1 then -(1 / sigma2.getD row 0) else 0) +
        (if 0 < row then -(1 / sigma2.getD (row - 1) 0) else 0)) - 0.001
  else if row + 1 = col then 1 / sigma2.getD row 0
  else if row = col + 1 then 1 / sigma2.getD col 0
  else 0

/-- Gradient vector of player.ts `gradient`: for each index the day's log
likelihood derivative plus the Wiener prior pulls toward both neighbors. -/
def gradientList (r : List ℝ) (days : List PlayerDay) (sigma2 : List ℝ) : List ℝ :=
  (List.range days.length).map (fun idx =>
    (days.getD idx default).logLikelihoodDerivative +
      ((if idx < days.length - 1 then
          -((r.getD idx 0 - r.getD (idx + 1) 0) / sigma2.getD idx 0) else 0) +
        (if 0 < idx then
          -((r.getD idx 0 - r.getD (idx - 1) 0) / sigma2.getD (idx - 1) 0) else 0)))

/-- Hessian of a player's current trajectory, as an entry function. -/
def Player.hEntry (p : Player) (row col : ℕ) : ℝ :=
  hessianEntry p.days p.computeSigma2 row col

/-- Gradient of a player's current trajectory (player.ts passes
`r = days.map(day => day.r)` into `gradient`). -/
def Player.gVec (p : Player) : List ℝ :=
  gradientList (p.days.map PlayerDay.r) p.days p.computeSigma2

/-- Pivots d[i] of the tridiagonal LU decomposition (player.ts
`luDecompositionTridiagonal`): d[0] = H[0][0] and
d[i] = H[i][i] - (H[i][i-1] / d[i-1]) * b[i-1] with b[i-1] = H[i-1][i]. -/
def luD (h : ℕ → ℕ → ℝ) : ℕ → ℝ
  | 0 => h 0 0
  | i + 1 => h (i + 1) (i + 1) - h (i + 1) i / luD h i * h i (i + 1)

/-- Forward substitution y solving L y = g (player.ts `updateByNDimNewton`):
y[0] = g[0], y[i] = g[i] - a[i] * y[i-1] with a[i] = H[i][i-1] / d[i-1]. -/
def forwardY (h : ℕ → ℕ → ℝ) (g : ℕ → ℝ) : ℕ → ℝ
  | 0 => g 0
  | i + 1 => g (i + 1) - h (i + 1) i / luD h i * forwardY h g i

/-- Back substitution solving U x = y, indexed from the last row:
`backXAux h g n k` is x[n-1-k], so k = 0 is x[n-1] = y[n-1] / d[n-1] and the
step is x[i] = (y[i] - b[i] * x[i+1]) / d[i] (player.ts `updateByNDimNewton`). -/
def backXAux (h : ℕ → ℕ → ℝ) (g : ℕ → ℝ) (n : ℕ) : ℕ → ℝ
  | 0 => forwardY h g (n - 1) / luD h (n - 1)
  | k + 1 =>
      (forwardY h g (n - 2 - k) - h (n - 2 - k) (n - 1 - k) * backXAux h g n k) /
        luD h (n - 2 - k)

/-- The solution component x[i] of the tridiagonal solve H x = g. -/
def backX (h : ℕ → ℕ → ℝ) (g : ℕ → ℝ) (n i : ℕ) : ℝ := backXAux h g n (n - 1 - i)

/-- Newton direction x of a player's multi-day update. -/
def Player.newtonX (p : Player) (i : ℕ) : ℝ :=
  backX p.hEntry (fun j => p.gVec.getD j 0) p.days.length i

/-- New ratings of the multi-day Newton step (player.ts
`updateByNDimNewton`): newR[i] = r[i] - x[i]. -/
def Player.newR (p : Player) (i : ℕ) : ℝ :=
  (p.days.map PlayerDay.r).getD i 0 - p.newtonX i

/-- Multi-day Newton step (player.ts `updateByNDimNewton`), in run form:
the stability check over the whole newR vector happens before any rating is
written, so on an `UnstableRatingException` the player is returned untouched,
and otherwise every day's r is overwritten with newR[i]. -/
def Player.updateByNDimNewton (p : Player) : Option WhrError × Player :=
  if ∃ i ∈ Finset.range p.days.length, 650 < p.newR i then
    (some .unstableRating, p)
  else
    (none, { p with days := p.days.mapIdx (fun i d => { d with r := p.newR i }) })

/-- One Newton iteration (player.ts `runOneNewtonIteration`): the 1-D path
for a single day, the n-dimensional path for more; the game-term cache
clearing of the code is implicit here because terms are recomputed by
definition. -/
def Player.runOneNewtonIteration (p : Player) : Option WhrError × Player :=
  if p.days.length = 1 then
    (none, { p with days := p.days.map PlayerDay.updateBy1DNewtonsMethod })
  else if 1 < p.days.length then p.updateByNDimNewton
  else (none, p)

/-- Reverse-elimination pivots dp of player.ts `covariance`, indexed from the
last row: `revDAux h n k` is dp[n-1-k], with dp[n-1] = H[n-1][n-1] and
dp[i] = H[i][i] - (H[i][i+1] / dp[i+1]) * bp[i+1], bp[i+1] = H[i+1][i]. -/
def revDAux (h : ℕ → ℕ → ℝ) (n : ℕ) : ℕ → ℝ
  | 0 => h (n - 1) (n - 1)
  | k + 1 =>
      h (n - 2 - k) (n - 2 - k) -
        h (n - 2 - k) (n - 1 - k) / revDAux h n k * h (n - 1 - k) (n - 2 - k)

/-- The reverse pivot dp[i]. -/
def revD (h : ℕ → ℕ → ℝ) (n i : ℕ) : ℝ := revDAux h n (n - 1 - i)

/-- Diagonal v[i] of the covariance matrix computed by player.ts
`covariance`: v[i] = dp[i+1] / (b[i] * bp[i+1] - d[i] * dp[i+1]) for
i < n-1 and v[n-1] = -1 / d[n-1]. -/
def Player.covV (p : Player) (i : ℕ) : ℝ :=
  if i = p.days.length - 1 then -1 / luD p.hEntry (p.days.length - 1)
  else
    revD p.hEntry p.days.length (i + 1) /
      (p.hEntry i (i + 1) * p.hEntry (i + 1) i -
        luD p.hEntry i * revD p.hEntry p.days.length (i + 1))

/-- Uncertainty refresh (player.ts `updateUncertainty`): when the player has
days, set each day's uncertainty to sqrt |cov[i][i]| with cov[i][i] = v[i]. -/
def Player.updateUncertainty (p : Player) : Player :=
  if 0 < p.days.length then
    { p with days := p.days.mapIdx (fun i d => { d with uncertainty := Real.sqrt |p.covV i| }) }
  else p

/-- Scan for the bracketing index (the t1Index loop of player.ts
`interpolateRating`): first i with day[i] <= t <= day[i+1], using fuel for
the remaining loop iterations. -/
def findT1Aux (days : List PlayerDay) (t : ℝ) : ℕ → ℕ → Option ℕ
  | _, 0 => none
  | i, k + 1 =>
      if (days.getD i default).day ≤ t ∧ t ≤ (days.getD (i + 1) default).day then some i
      else findT1Aux days t (i + 1) k

/-- The t1Index of player.ts `interpolateRating`, none when the loop leaves
it at -1. -/
def findT1 (days : List PlayerDay) (t : ℝ) : Option ℕ :=
  findT1Aux days t 0 (days.length - 1)

/-- Interpolated (elo, uncertainty) at a time point (player.ts
`interpolateRating`): empty and single-day special cases, extrapolation
toward the nearest endpoint outside the known range, and the Wiener-bridge
formulas with cross-covariance sigma12 fixed at zero in between. -/
def Player.interpolateRating (p : Player) (t : ℝ) : ℝ × ℝ :=
  if p.days.length = 0 then (0, Real.sqrt 5)
  else if p.days.length = 1 then
    let d := p.days.getD 0 default
    (d.elo, Real.sqrt (d.uncertainty * d.uncertainty + |t - d.day| * p.w2))
  else
    match findT1 p.days t with
    | none =>
        if t < (p.days.getD 0 default).day then
          let d := p.days.getD 0 default
          (d.elo, Real.sqrt (d.uncertainty * d.uncertainty + (d.day - t) * p.w2))
        else
          let d := p.days.getD (p.days.length - 1) default
          (d.elo, Real.sqrt (d.uncertainty * d.uncertainty + (t - d.day) * p.w2))
    | some i =>
        let t1 := p.days.getD i default
        let t2 := p.days.getD (i + 1) default
        let mu := (t1.r * (t2.day - t) + t2.r * (t - t1.day)) / (t2.day - t1.day)
        let sigma1Sq := t1.uncertainty * t1.uncertainty
        let sigma2Sq := t2.uncertainty * t2.uncertainty
        let sigma12 : ℝ := 0
        let varianceFromProcess := (t2.day - t) * (t - t1.day) / (t2.day - t1.day) * p.w2
        let varianceFromUncertainty :=
          ((t2.day - t) ^ 2 * sigma1Sq +
            2 * (t2.day - t) * (t - t1.day) * sigma12 +
            (t - t1.day) ^ 2 * sigma2Sq) / (t2.day - t1.day) ^ 2
        let totalVariance := varianceFromProcess + varianceFromUncertainty
        (mu * 400 / Real.log 10, Real.sqrt (max 0 totalVariance))

/-- Rating history rows (player.ts `getRatingHistory`): day, elo rounded to
the nearest integer, and uncertainty times 100 rounded. -/
def Player.getRatingHistory (p : Player) : List (ℝ × ℤ × ℤ) :=
  p.days.map (fun d => (d.day, round d.elo, round (d.uncertainty * 100)))

/-- Concrete two-day player used to evaluate the multi-day definitions on
explicit inputs: days 0 and 1, natural ratings 0, no games attached. -/
def twoDayPlayer : Player :=
  ⟨"p", [⟨0, 0, false, 1, [], []⟩, ⟨1, 0, false, 1, [], []⟩], 1⟩

/-- Concrete single-day player used to evaluate the one-day path. -/
def oneDayPlayer : Player :=
  ⟨"q", [⟨5, 0, false, 1, [], []⟩], 1⟩

/-- Concrete player used to evaluate the rating-history rows. -/
def historyPlayer : Player :=
  ⟨"h", [⟨7, 0, false, 3 / 2, [], []⟩], 1⟩

/-- Concrete player used to evaluate the interpolation formulas: known days
0 and 1 with ratings 1 and 2 and zero endpoint uncertainty. -/
def interpPlayer : Player :=
  ⟨"i", [⟨0, 1, false, 0, [], []⟩, ⟨1, 2, false, 0, [], []⟩], 1⟩

/-- Concrete game with both player days attached, handicap 1. -/
def sampleGame : Game :=
  ⟨3, "w", "b", 1, some ⟨3, 0, true, 1, [], []⟩, some ⟨3, 1, true, 1, [], []⟩⟩

/-- A freshly created player with no days. -/
def freshPlayer : Player := ⟨"n", [], 1⟩

/-- Two games arriving out of chronological order (day 2 first, then day 1). -/
def outOfOrderGames : List GameInfo := [⟨2, true, 1⟩, ⟨1, true, 1⟩]

/-- Three games arriving in nondecreasing day order (days 1, 1, 3). -/
def inOrderGames : List GameInfo := [⟨1, true, 1⟩, ⟨1, false, 1⟩, ⟨3, true, 1⟩]

/-! ### Helper lemmas on list indexing -/

lemma getD_map_range (f : ℕ → ℝ) (n i : ℕ) (hi : i < n) :
    ((List.range n).map f).getD i 0 = f i := by
  simp [List.getD, List.getElem?_map, List.getElem?_range hi]

lemma getD_map_r (l : List PlayerDay) (i : ℕ) (hi : i < l.length) :
    (l.map PlayerDay.r).getD i 0 = (l.getD i default).r := by
  rw [List.getD_eq_getElem _ _ (by simpa using hi), List.getD_eq_getElem _ _ hi,
    List.getElem_map]

lemma getD_mapIdx {α : Type} [Inhabited α] (l : List α) (f : ℕ → α → α) (i : ℕ)
    (hi : i < l.length) :
    (l.mapIdx f).getD i default = f i (l.getD i default) := by
  rw [List.getD_eq_getElem _ _ (by simpa using hi), List.getD_eq_getElem _ _ hi,
    List.getElem_mapIdx]

lemma computeSigma2_getD (p : Player) (i : ℕ) (hi : i + 1 < p.days.length) :
    p.computeSigma2.getD i 0 =
      |(p.days.getD (i + 1) default).day - (p.days.getD i default).day| * p.w2 := by
  unfold Player.computeSigma2
  exact getD_map_range _ _ _ (by omega)

/-! ### Correctness of the Thomas tridiagonal solve -/

lemma backX_last (h : ℕ → ℕ → ℝ) (g : ℕ → ℝ) (n : ℕ) :
    backX h g n (n - 1) = forwardY h g (n - 1) / luD h (n - 1) := by
  simp [backX, backXAux]

lemma backX_step (h : ℕ → ℕ → ℝ) (g : ℕ → ℝ) (n i : ℕ) (hi : i + 1 < n) :
    backX h g n i = (forwardY h g i - h i (i + 1) * backX h g n (i + 1)) / luD h i := by
  have h1 : n - 1 - i = (n - 2 - i) + 1 := by omega
  have h2 : n - 2 - (n - 2 - i) = i := by omega
  have h3 : n - 1 - (n - 2 - i) = i + 1 := by omega
  have h4 : n - 1 - (i + 1) = n - 2 - i := by omega
  rw [backX, h1, backXAux, h2, h3, backX, h4]

lemma luD_mul_backX (h : ℕ → ℕ → ℝ) (g : ℕ → ℝ) (n i : ℕ) (hi : i < n)
    (hd : luD h i ≠ 0) :
    luD h i * backX h g n i =
      forwardY h g i - (if i + 1 < n then h i (i + 1) * backX h g n (i + 1) else 0) := by
  by_cases hc : i + 1 < n
  · rw [if_pos hc, backX_step h g n i hc, mul_comm, div_mul_cancel₀ _ hd]
  · have hieq : i = n - 1 := by omega
    subst hieq
    rw [if_neg hc, backX_last, mul_comm, div_mul_cancel₀ _ hd, sub_zero]

lemma tridiag_row_sum (h : ℕ → ℕ → ℝ) (x : ℕ → ℝ) (n i : ℕ) (hi : i < n)
    (htri : ∀ a b, a < n → b < n → (a + 1 < b ∨ b + 1 < a) → h a b = 0) :
    ∑ j ∈ Finset.range n, h i j * x j =
      (if 0 < i then h i (i - 1) * x (i - 1) else 0) + h i i * x i +
        (if i + 1 < n then h i (i + 1) * x (i + 1) else 0) := by
  have hzero : ∀ j ∈ Finset.range (i - 1), h i j * x j = 0 := by
    intro j hj
    rw [Finset.mem_range] at hj
    rw [htri i j hi (by omega) (Or.inr (by omega)), zero_mul]
  by_cases hc : i + 1 < n
  · have hsub : ∑ j ∈ Finset.range n, h i j * x j = ∑ j ∈ Finset.range (i + 2), h i j * x j := by
      refine (Finset.sum_subset (Finset.range_subset.2 (by omega)) ?_).symm
      intro j hjn hj2
      rw [Finset.mem_range] at hjn
      rw [Finset.mem_range] at hj2
      rw [htri i j hi hjn (Or.inl (by omega)), zero_mul]
    rw [hsub, Finset.sum_range_succ, Finset.sum_range_succ, if_pos hc]
    rcases Nat.eq_zero_or_pos i with h0 | h0
    · subst h0
      simp
    · have hieq : i = (i - 1) + 1 := by omega
      rw [if_pos h0, hieq, Finset.sum_range_succ, ← hieq, Finset.sum_eq_zero hzero]
      ring
  · have hieq : i + 1 = n := by omega
    rw [if_neg hc, ← hieq, Finset.sum_range_succ]
    rcases Nat.eq_zero_or_pos i with h0 | h0
    · subst h0
      simp
    · have hieq2 : i = (i - 1) + 1 := by omega
      rw [if_pos h0, hieq2, Finset.sum_range_succ, ← hieq2, Finset.sum_eq_zero hzero]
      ring

theorem thomas_solves (h : ℕ → ℕ → ℝ) (g : ℕ → ℝ) (n : ℕ) (hn : 2 ≤ n)
    (htri : ∀ a b, a < n → b < n → (a + 1 < b ∨ b + 1 < a) → h a b = 0)
    (hpiv : ∀ i, i < n → luD h i ≠ 0) :
    ∀ i, i < n → ∑ j ∈ Finset.range n, h i j * backX h g n j = g i := by
  intro i hi
  rw [tridiag_row_sum h _ n i hi htri]
  rcases Nat.eq_zero_or_pos i with h0 | h0
  · subst h0
    have h1n : 0 + 1 < n := by omega
    rw [if_neg (by omega), if_pos h1n]
    have E := luD_mul_backX h g n 0 (by omega) (hpiv 0 (by omega))
    rw [if_pos h1n] at E
    have hdef : luD h 0 = h 0 0 := rfl
    have hydef : forwardY h g 0 = g 0 := rfl
    rw [hdef, hydef] at E
    linarith [E]
  · obtain ⟨j, rfl⟩ : ∃ j, i = j + 1 := ⟨i - 1, by omega⟩
    have hdj : luD h j ≠ 0 := hpiv j (by omega)
    have hdj1 : luD h (j + 1) ≠ 0 := hpiv (j + 1) hi
    have E1 := luD_mul_backX h g n j (by omega) hdj
    rw [if_pos hi] at E1
    have E2 := luD_mul_backX h g n (j + 1) hi hdj1
    have hH : h (j + 1) (j + 1) = luD h (j + 1) + h (j + 1) j / luD h j * h j (j + 1) := by
      have hstep : luD h (j + 1) = h (j + 1) (j + 1) - h (j + 1) j / luD h j * h j (j + 1) := rfl
      linarith [hstep]
    have hy : forwardY h g (j + 1) = g (j + 1) - h (j + 1) j / luD h j * forwardY h g j := rfl
    have hcancel : h (j + 1) j / luD h j * luD h j = h (j + 1) j := div_mul_cancel₀ _ hdj
    rw [if_pos h0]
    simp only [Nat.add_sub_cancel]
    set a := h (j + 1) j / luD h j with ha
    have key : h (j + 1) j * backX h g n j =
        a * forwardY h g j - a * (h j (j + 1) * backX h g n (j + 1)) := by
      calc h (j + 1) j * backX h g n j
          = a * (luD h j * backX h g n j) := by rw [← mul_assoc, ha, hcancel]
        _ = a * (forwardY h g j - h j (j + 1) * backX h g n (j + 1)) := by rw [E1]
        _ = a * forwardY h g j - a * (h j (j + 1) * backX h g n (j + 1)) := by ring
    rw [key, hH]
    have expand : (luD h (j + 1) + a * h j (j + 1)) * backX h g n (j + 1) =
        luD h (j + 1) * backX h g n (j + 1) + a * (h j (j + 1) * backX h g n (j + 1)) := by ring
    rw [expand, E2, hy]
    ring

/-! ### Diagonal dominance is preserved by both elimination passes -/

lemma luD_dominant (h : ℕ → ℕ → ℝ) (n : ℕ)
    (hdom : ∀ i, i < n →
      (if 0 < i then |h i (i - 1)| else 0) + (if i + 1 < n then |h i (i + 1)| else 0) < |h i i|) :
    ∀ i, i < n → (if i + 1 < n then |h i (i + 1)| else 0) < |luD h i| := by
  intro i
  induction i with
  | zero =>
      intro hi
      have hd := hdom 0 hi
      rw [if_neg (by omega)] at hd
      have hbase : luD h 0 = h 0 0 := rfl
      rw [hbase]
      linarith
  | succ j ih =>
      intro hi
      have ihj := ih (by omega)
      rw [if_pos hi] at ihj
      have hdpos : 0 < |luD h j| := lt_of_le_of_lt (abs_nonneg _) ihj
      have step : luD h (j + 1) = h (j + 1) (j + 1) - h (j + 1) j / luD h j * h j (j + 1) := rfl
      have tri : |h (j + 1) (j + 1)| - |h (j + 1) j / luD h j * h j (j + 1)| ≤ |luD h (j + 1)| := by
        rw [step]
        exact abs_sub_abs_le_abs_sub _ _
      have habs : |h (j + 1) j / luD h j * h j (j + 1)| =
          |h (j + 1) j| * |h j (j + 1)| / |luD h j| := by
        rw [abs_mul, abs_div]
        ring
      have hbnd : |h (j + 1) j| * |h j (j + 1)| / |luD h j| ≤ |h (j + 1) j| := by
        rw [div_le_iff₀ hdpos]
        exact mul_le_mul_of_nonneg_left ihj.le (abs_nonneg _)
      have hd := hdom (j + 1) hi
      rw [if_pos (by omega)] at hd
      have hd2 : |h (j + 1) j| + (if j + 1 + 1 < n then |h (j + 1) (j + 1 + 1)| else 0) <
          |h (j + 1) (j + 1)| := by
        simpa using hd
      rw [habs] at tri
      linarith

lemma revDAux_dominant (h : ℕ → ℕ → ℝ) (n : ℕ) (hn : 1 ≤ n)
    (hdom : ∀ i, i < n →
      (if 0 < i then |h i (i - 1)| else 0) + (if i + 1 < n then |h i (i + 1)| else 0) < |h i i|) :
    ∀ k, k < n →
      (if 0 < n - 1 - k then |h (n - 1 - k) (n - 1 - k - 1)| else 0) < |revDAux h n k| := by
  intro k
  induction k with
  | zero =>
      intro hk
      have hd := hdom (n - 1) (by omega)
      rw [if_neg (show ¬(n - 1 + 1 < n) by omega), add_zero] at hd
      have hrev : revDAux h n 0 = h (n - 1) (n - 1) := rfl
      rw [hrev]
      simp only [Nat.sub_zero]
      exact hd
  | succ k ih =>
      intro hk
      have ihk := ih (by omega)
      rw [if_pos (show 0 < n - 1 - k by omega)] at ihk
      have e1 : n - 1 - k - 1 = n - 2 - k := by omega
      rw [e1] at ihk
      have hdpos : 0 < |revDAux h n k| := lt_of_le_of_lt (abs_nonneg _) ihk
      have step : revDAux h n (k + 1) =
          h (n - 2 - k) (n - 2 - k) -
            h (n - 2 - k) (n - 1 - k) / revDAux h n k * h (n - 1 - k) (n - 2 - k) := rfl
      have tri : |h (n - 2 - k) (n - 2 - k)| -
          |h (n - 2 - k) (n - 1 - k) / revDAux h n k * h (n - 1 - k) (n - 2 - k)| ≤
          |revDAux h n (k + 1)| := by
        rw [step]
        exact abs_sub_abs_le_abs_sub _ _
      have habs : |h (n - 2 - k) (n - 1 - k) / revDAux h n k * h (n - 1 - k) (n - 2 - k)| =
          |h (n - 2 - k) (n - 1 - k)| * |h (n - 1 - k) (n - 2 - k)| / |revDAux h n k| := by
        rw [abs_mul, abs_div]
        ring
      have hbnd : |h (n - 2 - k) (n - 1 - k)| * |h (n - 1 - k) (n - 2 - k)| / |revDAux h n k| ≤
          |h (n - 2 - k) (n - 1 - k)| := by
        rw [div_le_iff₀ hdpos]
        exact mul_le_mul_of_nonneg_left ihk.le (abs_nonneg _)
      have hd := hdom (n - 2 - k) (by omega)
      have e2 : n - 2 - k + 1 = n - 1 - k := by omega
      rw [e2, if_pos (show n - 1 - k < n by omega)] at hd
      have e3 : n - 1 - (k + 1) = n - 2 - k := by omega
      rw [e3]
      rw [habs] at tri
      linarith

lemma revD_dominant (h : ℕ → ℕ → ℝ) (n : ℕ) (hn : 1 ≤ n)
    (hdom : ∀ i, i < n →
      (if 0 < i then |h i (i - 1)| else 0) + (if i + 1 < n then |h i (i + 1)| else 0) < |h i i|) :
    ∀ i, i < n → (if 0 < i then |h i (i - 1)| else 0) < |revD h n i| := by
  intro i hi
  have haux := revDAux_dominant h n hn hdom (n - 1 - i) (by omega)
  have e : n - 1 - (n - 1 - i) = i := by omega
  rw [e] at haux
  simpa [revD] using haux

/-! ### C1 -/

lemma getD_map_r_all (l : List PlayerDay) (j : ℕ) :
    (l.map PlayerDay.r).getD j 0 = (l.getD j default).r := by
  by_cases hj : j < l.length
  · exact getD_map_r l j hj
  · rw [List.getD_eq_default _ _ (by simpa using not_lt.mp hj),
      List.getD_eq_default _ _ (not_lt.mp hj)]
    rfl

/-- C1: for a trajectory with more than one day, one Newton iteration
assembles sigma2[i] = |day[i+1] - day[i]| * w2, the gradient with the two
Wiener prior pulls, and the tridiagonal Hessian with the regularized
diagonal, symmetric off-diagonal 1/sigma2[i], and zeros elsewhere. -/
theorem hessian_gradient_assembly (p : Player) (hn : 1 < p.days.length) :
    (∀ i, i + 1 < p.days.length → p.computeSigma2.getD i 0 =
      |(p.days.getD (i + 1) default).day - (p.days.getD i default).day| * p.w2) ∧
    (∀ i, i < p.days.length → p.gVec.getD i 0 =
      (p.days.getD i default).logLikelihoodDerivative +
        ((if i + 1 < p.days.length then
            -(((p.days.getD i default).r - (p.days.getD (i + 1) default).r) /
              p.computeSigma2.getD i 0) else 0) +
          (if 0 < i then
            -(((p.days.getD i default).r - (p.days.getD (i - 1) default).r) /
              p.computeSigma2.getD (i - 1) 0) else 0))) ∧
    (∀ i, i < p.days.length → p.hEntry i i =
      (p.days.getD i default).logLikelihoodSecondDerivative +
        ((if i + 1 < p.days.length then -(1 / p.computeSigma2.getD i 0) else 0) +
          (if 0 < i then -(1 / p.computeSigma2.getD (i - 1) 0) else 0)) - 0.001) ∧
    (∀ i, i + 1 < p.days.length →
      p.hEntry i (i + 1) = 1 / p.computeSigma2.getD i 0 ∧
        p.hEntry (i + 1) i = 1 / p.computeSigma2.getD i 0) ∧
    (∀ i j, i < p.days.length → j < p.days.length → (i + 1 < j ∨ j + 1 < i) →
      p.hEntry i j = 0) := by
  refine ⟨?_, ?_, ?_, ?_, ?_⟩
  · intro i hi
    exact computeSigma2_getD p i hi
  · intro i hi
    unfold Player.gVec gradientList
    rw [getD_map_range _ _ _ hi]
    simp only [show (i < p.days.length - 1) ↔ (i + 1 < p.days.length) from by omega,
      getD_map_r_all]
  · intro i hi
    unfold Player.hEntry hessianEntry
    rw [if_pos rfl]
    simp only [show (i < p.days.length - 1) ↔ (i + 1 < p.days.length) from by omega]
  · intro i hi
    constructor
    · unfold Player.hEntry hessianEntry
      rw [if_neg (by omega), if_pos rfl]
    · unfold Player.hEntry hessianEntry
      rw [if_neg (by omega), if_neg (by omega), if_pos rfl]
  · intro i j hi hj hij
    unfold Player.hEntry hessianEntry
    rw [if_neg (by omega), if_neg (by omega), if_neg (by omega)]

/-- C1 witness: the assembled off-diagonal entries at an explicit two-day
player. -/
theorem hessian_gradient_assembly_witness :
    twoDayPlayer.hEntry 0 1 = 1 / twoDayPlayer.computeSigma2.getD 0 0 ∧
      twoDayPlayer.hEntry 1 0 = 1 / twoDayPlayer.computeSigma2.getD 0 0 :=
  (hessian_gradient_assembly twoDayPlayer (by norm_num [twoDayPlayer])).2.2.2.1 0
    (by norm_num [twoDayPlayer])

/-! ### C2 -/

/-- C2: for a trajectory with more than one day, the multi-day Newton step
computes x by the Thomas recurrences embedded in `luD`, `forwardY` and
`backX`, commits newR[i] = r[i] - x[i], and whenever every pivot d[i] is
nonzero the computed x satisfies H x = g. -/
theorem newton_step_solves_tridiagonal (p : Player) (hn : 1 < p.days.length)
    (hpiv : ∀ i, i < p.days.length → luD p.hEntry i ≠ 0) :
    (∀ i, p.newR i = (p.days.map PlayerDay.r).getD i 0 - p.newtonX i) ∧
      ∀ i, i < p.days.length →
        ∑ j ∈ Finset.range p.days.length, p.hEntry i j * p.newtonX j =
          p.gVec.getD i 0 := by
  constructor
  · intro i
    rfl
  · intro i hi
    have htri : ∀ a b, a < p.days.length → b < p.days.length →
        (a + 1 < b ∨ b + 1 < a) → p.hEntry a b = 0 := by
      intro a b _ _ hab
      unfold Player.hEntry hessianEntry
      rw [if_neg (by omega), if_neg (by omega), if_neg (by omega)]
    simpa [Player.newtonX] using
      thomas_solves p.hEntry (fun j => p.gVec.getD j 0) p.days.length hn htri hpiv i hi

/-- C2 witness: concrete pivots and the solved row at the two-day player. -/
theorem newton_step_solves_tridiagonal_witness :
    luD twoDayPlayer.hEntry 0 ≠ 0 ∧ luD twoDayPlayer.hEntry 1 ≠ 0 ∧
      ∑ j ∈ Finset.range twoDayPlayer.days.length,
        twoDayPlayer.hEntry 1 j * twoDayPlayer.newtonX j =
          twoDayPlayer.gVec.getD 1 0 := by
  have hlen : twoDayPlayer.days.length = 2 := by simp [twoDayPlayer]
  have e00 : twoDayPlayer.hEntry 0 0 = -(1.001 : ℝ) := by
    norm_num [twoDayPlayer, Player.hEntry, hessianEntry, Player.computeSigma2,
      PlayerDay.logLikelihoodSecondDerivative, PlayerDay.gamma, PlayerDay.wonGameTerms,
      PlayerDay.lostGameTerms, List.range_succ]
  have e01 : twoDayPlayer.hEntry 0 1 = 1 := by
    norm_num [twoDayPlayer, Player.hEntry, hessianEntry, Player.computeSigma2,
      List.range_succ]
  have e10 : twoDayPlayer.hEntry 1 0 = 1 := by
    norm_num [twoDayPlayer, Player.hEntry, hessianEntry, Player.computeSigma2,
      List.range_succ]
  have e11 : twoDayPlayer.hEntry 1 1 = -(1.001 : ℝ) := by
    norm_num [twoDayPlayer, Player.hEntry, hessianEntry, Player.computeSigma2,
      PlayerDay.logLikelihoodSecondDerivative, PlayerDay.gamma, PlayerDay.wonGameTerms,
      PlayerDay.lostGameTerms, List.range_succ]
  have l0 : luD twoDayPlayer.hEntry 0 = twoDayPlayer.hEntry 0 0 := rfl
  have l1 : luD twoDayPlayer.hEntry 1 =
      twoDayPlayer.hEntry 1 1 -
        twoDayPlayer.hEntry 1 0 / luD twoDayPlayer.hEntry 0 * twoDayPlayer.hEntry 0 1 := rfl
  have hp0 : luD twoDayPlayer.hEntry 0 ≠ 0 := by
    rw [l0, e00]
    norm_num
  have hp1 : luD twoDayPlayer.hEntry 1 ≠ 0 := by
    rw [l1, l0, e00, e01, e10, e11]
    norm_num
  have hpiv : ∀ i, i < twoDayPlayer.days.length → luD twoDayPlayer.hEntry i ≠ 0 := by
    intro i hi
    rw [hlen] at hi
    interval_cases i
    · exact hp0
    · exact hp1
  exact ⟨hp0, hp1,
    (newton_step_solves_tridiagonal twoDayPlayer (by rw [hlen]; omega) hpiv).2 1
      (by rw [hlen]; omega)⟩

/-! ### C3 -/

/-- C3: the multi-day Newton step raises `UnstableRatingException` exactly
when some component of newR exceeds 650; when it throws the ratings are left
untouched, and when it does not every day's r is overwritten with newR[i]. -/
theorem newton_step_stability_check (p : Player) (hn : 1 < p.days.length) :
    (p.updateByNDimNewton.1 = some WhrError.unstableRating ↔
      ∃ i ∈ Finset.range p.days.length, 650 < p.newR i) ∧
    ((∃ i ∈ Finset.range p.days.length, 650 < p.newR i) → p.updateByNDimNewton.2 = p) ∧
    ((¬ ∃ i ∈ Finset.range p.days.length, 650 < p.newR i) →
      ∀ i, i < p.days.length →
        (p.updateByNDimNewton.2.days.getD i default).r = p.newR i) := by
  unfold Player.updateByNDimNewton
  by_cases hex : ∃ i ∈ Finset.range p.days.length, 650 < p.newR i
  · rw [if_pos hex]
    exact ⟨⟨fun _ => hex, fun _ => rfl⟩, fun _ => rfl, fun hc => absurd hex hc⟩
  · rw [if_neg hex]
    refine ⟨⟨fun hc => by simp at hc, fun hc => absurd hc hex⟩, fun hc => absurd hc hex, ?_⟩
    intro _ i hi
    have := getD_mapIdx p.days (fun i d => { d with r := p.newR i }) i hi
    simp only at this ⊢
    rw [this]

/-- C3 witness: the stability trichotomy at the explicit two-day player. -/
theorem newton_step_stability_check_witness :
    (twoDayPlayer.updateByNDimNewton.1 = some WhrError.unstableRating ↔
      ∃ i ∈ Finset.range twoDayPlayer.days.length, 650 < twoDayPlayer.newR i) ∧
    ((∃ i ∈ Finset.range twoDayPlayer.days.length, 650 < twoDayPlayer.newR i) →
      twoDayPlayer.updateByNDimNewton.2 = twoDayPlayer) ∧
    ((¬ ∃ i ∈ Finset.range twoDayPlayer.days.length, 650 < twoDayPlayer.newR i) →
      ∀ i, i < twoDayPlayer.days.length →
        (twoDayPlayer.updateByNDimNewton.2.days.getD i default).r = twoDayPlayer.newR i) :=
  newton_step_stability_check twoDayPlayer (by simp [twoDayPlayer])

/-! ### C9 -/

/-- C9: on a single-day trajectory one Newton iteration applies the 1-D
update r := r - dlogp / d2logp, silently skipping (no error, rating
unchanged) when the second derivative magnitude is below 1e-10. -/
theorem one_day_newton_iteration (p : Player) (d : PlayerDay) (hd : p.days = [d]) :
    p.runOneNewtonIteration.1 = none ∧
    (|d.logLikelihoodSecondDerivative| < 1e-10 → p.runOneNewtonIteration.2.days = [d]) ∧
    (¬ |d.logLikelihoodSecondDerivative| < 1e-10 →
      p.runOneNewtonIteration.2.days =
        [{ d with r := d.r - d.logLikelihoodDerivative / d.logLikelihoodSecondDerivative }]) := by
  have hrun : p.runOneNewtonIteration =
      (none, { p with days := [d.updateBy1DNewtonsMethod] }) := by
    unfold Player.runOneNewtonIteration
    rw [hd]
    simp
  rw [hrun]
  refine ⟨rfl, ?_, ?_⟩
  · intro h
    simp [PlayerDay.updateBy1DNewtonsMethod, if_pos h]
  · intro h
    simp [PlayerDay.updateBy1DNewtonsMethod, if_neg h]

/-- C9 witness: the explicit one-day player has no games, so the second
derivative is zero and the pass is skipped with no error. -/
theorem one_day_newton_iteration_witness :
    oneDayPlayer.runOneNewtonIteration.1 = none ∧
      |(PlayerDay.mk 5 0 false 1 [] []).logLikelihoodSecondDerivative| < 1e-10 ∧
      oneDayPlayer.runOneNewtonIteration.2.days = [PlayerDay.mk 5 0 false 1 [] []] := by
  have hd2 : |(PlayerDay.mk 5 0 false 1 [] []).logLikelihoodSecondDerivative| < 1e-10 := by
    norm_num [PlayerDay.logLikelihoodSecondDerivative, PlayerDay.wonGameTerms,
      PlayerDay.lostGameTerms, PlayerDay.gamma]
  have happ := one_day_newton_iteration oneDayPlayer (PlayerDay.mk 5 0 false 1 [] []) rfl
  exact ⟨happ.1, hd2, happ.2.1 hd2⟩

/-! ### C10 -/

/-- C10: each rating-history row is the day, the Elo rounded to the nearest
integer, and the stored uncertainty times 100 rounded. -/
theorem getRatingHistory_rounding (p : Player) :
    ∀ i, i < p.days.length →
      p.getRatingHistory.getD i (0, 0, 0) =
        ((p.days.getD i default).day, round (p.days.getD i default).elo,
          round ((p.days.getD i default).uncertainty * 100)) := by
  intro i hi
  unfold Player.getRatingHistory
  rw [List.getD_eq_getElem _ _ (by simpa using hi), List.getD_eq_getElem _ _ hi,
    List.getElem_map]

/-- C10 witness: the history row of the explicit player with elo 0 and
uncertainty 3/2 is (7, 0, 150). -/
theorem getRatingHistory_rounding_witness :
    historyPlayer.getRatingHistory.getD 0 (0, 0, 0) = (7, 0, 150) := by
  rw [getRatingHistory_rounding historyPlayer 0 (by simp [historyPlayer])]
  norm_num [historyPlayer, PlayerDay.elo, round_eq]

/-! ### C4 -/

lemma PlayerDay.addGameInfo_day (pd : PlayerDay) (g : GameInfo) :
    (pd.addGameInfo g).day = pd.day := by
  unfold PlayerDay.addGameInfo
  split <;> rfl

lemma PlayerDay.addGameInfo_isFirstDay (pd : PlayerDay) (g : GameInfo) :
    (pd.addGameInfo g).isFirstDay = pd.isFirstDay := by
  unfold PlayerDay.addGameInfo
  split <;> rfl

/-- C4 counterexample: adding a day-2 game and then a day-1 game to a fresh
player produces the days list [2, 1], which is not strictly increasing. -/
theorem addGame_out_of_order_counterexample :
    ¬ List.Pairwise (· < ·)
        ((outOfOrderGames.foldl Player.addGame freshPlayer).days.map PlayerDay.day) := by
  have hmap : (outOfOrderGames.foldl Player.addGame freshPlayer).days.map PlayerDay.day
      = [2, 1] := by
    norm_num [outOfOrderGames, freshPlayer, Player.addGame, PlayerDay.addGameInfo,
      List.foldl, List.getLast?]
  rw [hmap]
  intro h
  have h21 := (List.pairwise_cons.mp h).1 1 (by simp)
  norm_num at h21

lemma addGame_push_days (p : Player) (g : GameInfo)
    (hcond : p.days.isEmpty = true ∨ (p.days.getLast?.getD default).day ≠ g.day) :
    (p.addGame g).days = p.days ++
      [(PlayerDay.mk g.day
          (if p.days.isEmpty = true then Real.log 1
           else Real.log (p.days.getLast?.getD default).gamma)
          p.days.isEmpty (Real.sqrt 5) [] []).addGameInfo g] := by
  unfold Player.addGame
  rw [if_pos hcond]

lemma addGame_reuse_days (p : Player) (g : GameInfo)
    (hcond : ¬(p.days.isEmpty = true ∨ (p.days.getLast?.getD default).day ≠ g.day)) :
    (p.addGame g).days = p.days.dropLast ++ [(p.days.getLast?.getD default).addGameInfo g] := by
  unfold Player.addGame
  rw [if_neg hcond]

lemma addGame_fold_invariant_aux : ∀ (gs : List GameInfo) (p : Player),
    List.Pairwise (· ≤ ·) (gs.map GameInfo.day) →
    List.Chain' (· < ·) (p.days.map PlayerDay.day) →
    (∀ i, i < p.days.length → ((p.days.getD i default).isFirstDay = true ↔ i = 0)) →
    (∀ g ∈ gs, p.days = [] ∨ (p.days.getLast?.getD default).day ≤ g.day) →
    List.Chain' (· < ·) ((gs.foldl Player.addGame p).days.map PlayerDay.day) ∧
      ∀ i, i < (gs.foldl Player.addGame p).days.length →
        (((gs.foldl Player.addGame p).days.getD i default).isFirstDay = true ↔ i = 0) := by
  intro gs
  induction gs with
  | nil =>
      intro p _ hchain hanchor _
      exact ⟨hchain, hanchor⟩
  | cons g rest ih =>
      intro p hsort hchain hanchor hlb
      rw [List.map_cons, List.pairwise_cons] at hsort
      obtain ⟨hgle, hsort2⟩ := hsort
      rw [List.foldl_cons]
      by_cases hcond : p.days.isEmpty = true ∨ (p.days.getLast?.getD default).day ≠ g.day
      · have hdays := addGame_push_days p g hcond
        set nd := (PlayerDay.mk g.day
            (if p.days.isEmpty = true then Real.log 1
             else Real.log (p.days.getLast?.getD default).gamma)
            p.days.isEmpty (Real.sqrt 5) [] []).addGameInfo g with hnd
        have hndday : nd.day = g.day := by
          rw [hnd, PlayerDay.addGameInfo_day]
        have hndflag : nd.isFirstDay = p.days.isEmpty := by
          rw [hnd, PlayerDay.addGameInfo_isFirstDay]
        apply ih (p.addGame g) hsort2
        · rw [hdays, List.map_append, List.chain'_append]
          refine ⟨hchain, by simp, ?_⟩
          intro x hx y hy
          simp only [List.map_cons, List.map_nil, List.head?_cons, Option.mem_def,
            Option.some.injEq] at hy
          subst hy
          rw [List.getLast?_map] at hx
          rcases hLs : p.days.getLast? with _ | L
          · rw [hLs] at hx
            simp at hx
          · rw [hLs] at hx
            simp only [Option.map_some', Option.mem_def, Option.some.injEq] at hx
            subst hx
            have hne : p.days ≠ [] := by
              intro hp
              rw [hp] at hLs
              simp at hLs
            have hle := hlb g (List.mem_cons_self g rest)
            rcases hle with hpe | hle
            · exact absurd hpe hne
            · have hlastne : (p.days.getLast?.getD default).day ≠ g.day := by
                rcases hcond with hA | hB
                · exact absurd (List.isEmpty_iff.mp hA) hne
                · exact hB
              rw [hLs] at hle hlastne
              simp only [Option.getD_some] at hle hlastne
              rw [hndday]
              exact lt_of_le_of_ne hle hlastne
        · intro i hi
          rw [hdays] at hi ⊢
          rw [List.length_append, List.length_singleton] at hi
          by_cases hilt : i < p.days.length
          · rw [List.getD_append _ _ _ _ hilt]
            exact hanchor i hilt
          · have hieq : i = p.days.length := by omega
            subst hieq
            rw [List.getD_eq_getElem _ _ (by simp), List.getElem_concat_length _ _ _ rfl,
              hndflag]
            by_cases hpe : p.days = []
            · simp [hpe]
            · have hif : p.days.isEmpty = false := by
                simpa [List.isEmpty_iff] using hpe
              rw [hif]
              simp only [Bool.false_eq_true, false_iff]
              intro hlen
              exact hpe (List.length_eq_zero.mp hlen)
        · intro g2 hg2
          right
          rw [hdays, List.getLast?_concat]
          simp only [Option.getD_some]
          rw [hndday]
          exact hgle g2.day (List.mem_map_of_mem _ hg2)
      · have hdays := addGame_reuse_days p g hcond
        have hnA := (not_or.mp hcond).1
        have heq := not_not.mp (not_or.mp hcond).2
        have hne : p.days ≠ [] := by
          intro hp
          exact hnA (by simp [hp])
        have hL : p.days.getLast? = some (p.days.getLast hne) := List.getLast?_eq_getLast _ _
        set L := p.days.getLast hne with hLdef
        have hgetD : p.days.getLast?.getD default = L := by
          rw [hL]
          rfl
        rw [hgetD] at hdays heq
        have hstruct : p.days.dropLast ++ [L] = p.days := List.dropLast_append_getLast hne
        have hmapeq : (p.addGame g).days.map PlayerDay.day = p.days.map PlayerDay.day := by
          rw [hdays]
          conv_rhs => rw [← hstruct]
          rw [List.map_append, List.map_append]
          simp [PlayerDay.addGameInfo_day]
        have hlen2 : (p.addGame g).days.length = p.days.length := by
          rw [hdays]
          conv_rhs => rw [← hstruct]
          simp
        apply ih (p.addGame g) hsort2
        · rw [hmapeq]
          exact hchain
        · intro i hi
          rw [hlen2] at hi
          rw [hdays]
          by_cases hilt : i < p.days.dropLast.length
          · rw [List.getD_append _ _ _ _ hilt]
            have hgd : p.days.dropLast.getD i default = p.days.getD i default := by
              rw [List.getD_eq_getElem _ _ hilt,
                List.getD_eq_getElem _ _ (by simp only [List.length_dropLast] at hilt; omega)]
              exact List.getElem_dropLast _ _ _
            rw [hgd]
            exact hanchor i hi
          · have hidx : i = p.days.dropLast.length := by
              simp only [List.length_dropLast] at hilt ⊢
              omega
            rw [hidx, List.getD_eq_getElem _ _ (by simp), List.getElem_concat_length _ _ _ rfl,
              PlayerDay.addGameInfo_isFirstDay]
            have hgl : p.days.getD (p.days.length - 1) default = L := by
              rw [List.getD_eq_getElem _ _ (by omega), hLdef, List.getLast_eq_getElem]
            have hflag := hanchor (p.days.length - 1) (by omega)
            rw [hgl] at hflag
            rw [List.length_dropLast]
            exact hflag
        · intro g2 hg2
          right
          rw [hdays, List.getLast?_concat]
          simp only [Option.getD_some]
          rw [PlayerDay.addGameInfo_day, heq]
          exact hgle g2.day (List.mem_map_of_mem _ hg2)

/-- C4 amended: when the games fed to `addGame` carry nondecreasing day
values, the days list stays strictly increasing (hence unique by day) and
exactly its first element is the anchor; with arbitrary insertion order the
code only compares against the last day, and the invariant fails (see the
counterexample). -/
theorem addGame_ordered_invariant (gs : List GameInfo) (p0 : Player) (h0 : p0.days = [])
    (hsort : List.Pairwise (· ≤ ·) (gs.map GameInfo.day)) :
    List.Pairwise (· < ·) ((gs.foldl Player.addGame p0).days.map PlayerDay.day) ∧
      ∀ i, i < (gs.foldl Player.addGame p0).days.length →
        (((gs.foldl Player.addGame p0).days.getD i default).isFirstDay = true ↔ i = 0) := by
  have haux := addGame_fold_invariant_aux gs p0 hsort
    (by rw [h0]; simp) (by rw [h0]; intro i hi; simp at hi) (fun g _ => Or.inl h0)
  exact ⟨List.chain'_iff_pairwise.mp haux.1, haux.2⟩

/-- C4 witness: the invariant at the explicit nondecreasing game sequence
with days 1, 1, 3. -/
theorem addGame_ordered_invariant_witness :
    List.Pairwise (· < ·)
        ((inOrderGames.foldl Player.addGame freshPlayer).days.map PlayerDay.day) ∧
      ∀ i, i < (inOrderGames.foldl Player.addGame freshPlayer).days.length →
        (((inOrderGames.foldl Player.addGame freshPlayer).days.getD i default).isFirstDay =
            true ↔ i = 0) :=
  addGame_ordered_invariant inOrderGames freshPlayer rfl
    (by norm_num [inOrderGames, List.pairwise_cons])

/-! ### C5 and C6 -/

lemma except_ok_bind {β : Type} (a : ℝ) (f : ℝ → Except WhrError β) :
    (Except.ok a >>= f : Except WhrError β) = f a := rfl

lemma except_error_bind {β : Type} (e : WhrError) (f : ℝ → Except WhrError β) :
    (Except.error e >>= f : Except WhrError β) = Except.error e := rfl

lemma rpow_elo_offset (r h : ℝ) :
    (10 : ℝ) ^ ((r * 400 / Real.log 10 + h) / 400) =
      Real.exp (r + Real.log 10 * h / 400) := by
  have h10 : (0 : ℝ) < 10 := by norm_num
  have hlog : Real.log 10 ≠ 0 := ne_of_gt (Real.log_pos (by norm_num))
  rw [Real.rpow_def_of_pos h10]
  congr 1
  field_simp
  ring

lemma rpow_elo_offset_sub (r h : ℝ) :
    (10 : ℝ) ^ ((r * 400 / Real.log 10 - h) / 400) =
      Real.exp (r - Real.log 10 * h / 400) := by
  have h10 : (0 : ℝ) < 10 := by norm_num
  have hlog : Real.log 10 ≠ 0 := ne_of_gt (Real.log_pos (by norm_num))
  rw [Real.rpow_def_of_pos h10]
  congr 1
  field_simp
  ring

lemma opponentsAdjustedGamma_white (g : Game) (b : PlayerDay) (hb : g.bpd = some b) :
    g.opponentsAdjustedGamma g.white =
      .ok ((10 : ℝ) ^ ((b.elo + g.handicap) / 400)) := by
  have hoe : g.opponentElo g.white = .ok (b.elo + g.handicap) := by
    unfold Game.opponentElo
    rw [if_pos rfl, hb]
  unfold Game.opponentsAdjustedGamma
  rw [hoe, except_ok_bind]
  show (if (10 : ℝ) ^ ((b.elo + g.handicap) / 400) = 0 then Except.error WhrError.unstableRating
    else pure ((10 : ℝ) ^ ((b.elo + g.handicap) / 400))) = _
  rw [if_neg (ne_of_gt (Real.rpow_pos_of_pos (by norm_num) _))]
  rfl

lemma opponentsAdjustedGamma_black (g : Game) (w : PlayerDay) (hw : g.wpd = some w)
    (hne : g.black ≠ g.white) :
    g.opponentsAdjustedGamma g.black =
      .ok ((10 : ℝ) ^ ((w.elo - g.handicap) / 400)) := by
  have hoe : g.opponentElo g.black = .ok (w.elo - g.handicap) := by
    unfold Game.opponentElo
    rw [if_neg hne, if_pos rfl, hw]
  unfold Game.opponentsAdjustedGamma
  rw [hoe, except_ok_bind]
  show (if (10 : ℝ) ^ ((w.elo - g.handicap) / 400) = 0 then Except.error WhrError.unstableRating
    else pure ((10 : ℝ) ^ ((w.elo - g.handicap) / 400))) = _
  rw [if_neg (ne_of_gt (Real.rpow_pos_of_pos (by norm_num) _))]
  rfl

/-- C5: with both player days attached, the two Bradley-Terry win
probabilities computed from the same ratings sum to exactly one, for every
handicap value. -/
theorem win_probabilities_sum_to_one (g : Game) (w b : PlayerDay)
    (hw : g.wpd = some w) (hb : g.bpd = some b) (hne : g.black ≠ g.white) :
    ∃ pw pb, g.whiteWinProbability = .ok pw ∧ g.blackWinProbability = .ok pb ∧
      pw + pb = 1 := by
  refine ⟨w.gamma / (w.gamma + (10 : ℝ) ^ ((b.elo + g.handicap) / 400)),
    b.gamma / (b.gamma + (10 : ℝ) ^ ((w.elo - g.handicap) / 400)), ?_, ?_, ?_⟩
  · unfold Game.whiteWinProbability
    rw [hw, opponentsAdjustedGamma_white g b hb]
    rfl
  · unfold Game.blackWinProbability
    rw [hb, opponentsAdjustedGamma_black g w hw hne]
    rfl
  · rw [PlayerDay.gamma, PlayerDay.gamma, PlayerDay.elo, PlayerDay.elo,
      rpow_elo_offset, rpow_elo_offset_sub]
    have hA : 0 < Real.exp w.r := Real.exp_pos _
    have hB : 0 < Real.exp b.r := Real.exp_pos _
    have hk : 0 < Real.exp (Real.log 10 * g.handicap / 400) := Real.exp_pos _
    rw [Real.exp_add, Real.exp_sub]
    have hd1 : Real.exp w.r + Real.exp b.r * Real.exp (Real.log 10 * g.handicap / 400) ≠ 0 := by
      positivity
    have hd2 : Real.exp b.r +
        Real.exp w.r / Real.exp (Real.log 10 * g.handicap / 400) ≠ 0 := by
      positivity
    field_simp
    ring

/-- C5 witness: the two probabilities at the explicit attached game. -/
theorem win_probabilities_sum_to_one_witness :
    ∃ pw pb, sampleGame.whiteWinProbability = .ok pw ∧
      sampleGame.blackWinProbability = .ok pb ∧ pw + pb = 1 :=
  win_probabilities_sum_to_one sampleGame ⟨3, 0, true, 1, [], []⟩ ⟨3, 1, true, 1, [], []⟩
    rfl rfl (by simp [sampleGame])

/-- C6: the opponent adjusted gamma is 10 ^ ((opponent elo ± handicap) / 400)
according to the side, fails when the opposing player day is not attached,
and every value it returns is strictly positive (in exact real arithmetic the
zero / non-finite guard never fires). -/
theorem opponentsAdjustedGamma_spec (g : Game) (pn : String) (hne : g.black ≠ g.white) :
    (pn = g.white →
      ((g.bpd = none → g.opponentsAdjustedGamma pn = .error .missingDay) ∧
        ∀ b, g.bpd = some b →
          g.opponentsAdjustedGamma pn = .ok ((10 : ℝ) ^ ((b.elo + g.handicap) / 400)))) ∧
    (pn = g.black →
      ((g.wpd = none → g.opponentsAdjustedGamma pn = .error .missingDay) ∧
        ∀ w, g.wpd = some w →
          g.opponentsAdjustedGamma pn = .ok ((10 : ℝ) ^ ((w.elo - g.handicap) / 400)))) ∧
    (∀ v, g.opponentsAdjustedGamma pn = .ok v → 0 < v) := by
  have hwhite_none : g.bpd = none → g.opponentsAdjustedGamma g.white = .error .missingDay := by
    intro hb
    have hoe : g.opponentElo g.white = .error .missingDay := by
      unfold Game.opponentElo
      rw [if_pos rfl, hb]
    unfold Game.opponentsAdjustedGamma
    rw [hoe, except_error_bind]
  have hblack_none : g.wpd = none → g.opponentsAdjustedGamma g.black = .error .missingDay := by
    intro hw
    have hoe : g.opponentElo g.black = .error .missingDay := by
      unfold Game.opponentElo
      rw [if_neg hne, if_pos rfl, hw]
    unfold Game.opponentsAdjustedGamma
    rw [hoe, except_error_bind]
  refine ⟨?_, ?_, ?_⟩
  · intro hpn
    subst hpn
    exact ⟨hwhite_none, fun b hb => opponentsAdjustedGamma_white g b hb⟩
  · intro hpn
    subst hpn
    exact ⟨hblack_none, fun w hw => opponentsAdjustedGamma_black g w hw hne⟩
  · intro v hv
    by_cases hpw : pn = g.white
    · subst hpw
      rcases hbp : g.bpd with _ | b
      · rw [hwhite_none hbp] at hv
        exact absurd hv (by simp)
      · rw [opponentsAdjustedGamma_white g b hbp] at hv
        have hveq : (10 : ℝ) ^ ((b.elo + g.handicap) / 400) = v := by
          injection hv
        rw [← hveq]
        exact Real.rpow_pos_of_pos (by norm_num) _
    · by_cases hpb : pn = g.black
      · subst hpb
        rcases hwp : g.wpd with _ | w
        · rw [hblack_none hwp] at hv
          exact absurd hv (by simp)
        · rw [opponentsAdjustedGamma_black g w hwp hne] at hv
          have hveq : (10 : ℝ) ^ ((w.elo - g.handicap) / 400) = v := by
            injection hv
          rw [← hveq]
          exact Real.rpow_pos_of_pos (by norm_num) _
      · have hoe : g.opponentElo pn = .error .notInGame := by
          unfold Game.opponentElo
          rw [if_neg hpw, if_neg hpb]
        have : g.opponentsAdjustedGamma pn = .error .notInGame := by
          unfold Game.opponentsAdjustedGamma
          rw [hoe, except_error_bind]
        rw [this] at hv
        exact absurd hv (by simp)

/-- C6 witness: the adjusted gamma contract at the explicit attached game,
queried for the white player. -/
theorem opponentsAdjustedGamma_spec_witness :
    (("w" : String) = sampleGame.white →
      ((sampleGame.bpd = none →
          sampleGame.opponentsAdjustedGamma "w" = .error .missingDay) ∧
        ∀ b, sampleGame.bpd = some b →
          sampleGame.opponentsAdjustedGamma "w" =
            .ok ((10 : ℝ) ^ ((b.elo + sampleGame.handicap) / 400)))) ∧
    (("w" : String) = sampleGame.black →
      ((sampleGame.wpd = none →
          sampleGame.opponentsAdjustedGamma "w" = .error .missingDay) ∧
        ∀ w, sampleGame.wpd = some w →
          sampleGame.opponentsAdjustedGamma "w" =
            .ok ((10 : ℝ) ^ ((w.elo - sampleGame.handicap) / 400)))) ∧
    (∀ v, sampleGame.opponentsAdjustedGamma "w" = .ok v → 0 < v) :=
  opponentsAdjustedGamma_spec sampleGame "w" (by simp [sampleGame])

/-! ### C7 -/

lemma sorted_days_lt (days : List PlayerDay)
    (hsorted : List.Pairwise (· < ·) (days.map PlayerDay.day))
    (a b : ℕ) (hab : a < b) (hb : b < days.length) :
    (days.getD a default).day < (days.getD b default).day := by
  rw [List.getD_eq_getElem _ _ (by omega), List.getD_eq_getElem _ _ hb]
  have hp := List.pairwise_iff_getElem.mp hsorted a b
    (by simpa using (by omega : a < days.length)) (by simpa using hb) hab
  simpa using hp

lemma findT1Aux_finds (days : List PlayerDay) (t : ℝ) (i : ℕ)
    (hi : i + 1 < days.length)
    (hcond : (days.getD i default).day ≤ t ∧ t ≤ (days.getD (i + 1) default).day) :
    ∀ k j, j ≤ i → j + k = days.length - 1 →
      (∀ m, j ≤ m → m < i →
        ¬((days.getD m default).day ≤ t ∧ t ≤ (days.getD (m + 1) default).day)) →
      findT1Aux days t j k = some i := by
  intro k
  induction k with
  | zero =>
      intro j hji hjk _
      omega
  | succ k ih =>
      intro j hji hjk hmiss
      rcases Nat.lt_or_ge j i with hjlt | hjge
      · rw [findT1Aux, if_neg (hmiss j le_rfl hjlt)]
        exact ih (j + 1) (by omega) (by omega) (fun m hm1 hm2 => hmiss m (by omega) hm2)
      · have hje : j = i := by omega
        subst hje
        rw [findT1Aux, if_pos hcond]

lemma findT1_bracket (days : List PlayerDay) (t : ℝ) (i : ℕ)
    (hsorted : List.Pairwise (· < ·) (days.map PlayerDay.day))
    (hi : i + 1 < days.length)
    (h1 : (days.getD i default).day < t) (h2 : t < (days.getD (i + 1) default).day) :
    findT1 days t = some i := by
  unfold findT1
  apply findT1Aux_finds days t i hi ⟨le_of_lt h1, le_of_lt h2⟩ (days.length - 1) 0
    (by omega) (by omega)
  intro m _ hmi
  intro hcontra
  have hle : (days.getD (m + 1) default).day ≤ (days.getD i default).day := by
    rcases Nat.lt_or_ge (m + 1) i with hlt | hge
    · exact le_of_lt (sorted_days_lt days hsorted (m + 1) i hlt (by omega))
    · have : m + 1 = i := by omega
      rw [this]
  linarith [hcontra.2]

/-- C7: for a query time strictly inside an adjacent pair of known days of a
sorted trajectory, the interpolated mean is the distance-weighted average of
the two natural ratings reported on the Elo scale, the squared reported
uncertainty is the Wiener-bridge variance plus the endpoint-uncertainty
contribution with zero cross-covariance, and at the midpoint of two days one
day apart with zero endpoint uncertainties it equals w2 / 4. -/
theorem interpolateRating_between_days (p : Player) (i : ℕ) (t : ℝ)
    (hsorted : List.Pairwise (· < ·) (p.days.map PlayerDay.day))
    (hi : i + 1 < p.days.length)
    (h1 : (p.days.getD i default).day < t) (h2 : t < (p.days.getD (i + 1) default).day)
    (hw2 : 0 ≤ p.w2) :
    (p.interpolateRating t).1 =
      ((p.days.getD i default).r * ((p.days.getD (i + 1) default).day - t) +
        (p.days.getD (i + 1) default).r * (t - (p.days.getD i default).day)) /
        ((p.days.getD (i + 1) default).day - (p.days.getD i default).day) * 400 /
        Real.log 10 ∧
    (p.interpolateRating t).2 ^ 2 =
      ((p.days.getD (i + 1) default).day - t) * (t - (p.days.getD i default).day) /
        ((p.days.getD (i + 1) default).day - (p.days.getD i default).day) * p.w2 +
      (((p.days.getD (i + 1) default).day - t) ^ 2 *
          (p.days.getD i default).uncertainty ^ 2 +
        (t - (p.days.getD i default).day) ^ 2 *
          (p.days.getD (i + 1) default).uncertainty ^ 2) /
        ((p.days.getD (i + 1) default).day - (p.days.getD i default).day) ^ 2 ∧
    ((p.days.getD (i + 1) default).day = (p.days.getD i default).day + 1 →
      (p.days.getD i default).uncertainty = 0 →
      (p.days.getD (i + 1) default).uncertainty = 0 →
      t = (p.days.getD i default).day + 1 / 2 →
      (p.interpolateRating t).2 ^ 2 = 1 / 4 * p.w2) := by
  have hn0 : ¬(p.days.length = 0) := by omega
  have hn1 : ¬(p.days.length = 1) := by omega
  have hfind := findT1_bracket p.days t i hsorted hi h1 h2
  have hval : p.interpolateRating t =
      (((p.days.getD i default).r * ((p.days.getD (i + 1) default).day - t) +
          (p.days.getD (i + 1) default).r * (t - (p.days.getD i default).day)) /
          ((p.days.getD (i + 1) default).day - (p.days.getD i default).day) * 400 /
          Real.log 10,
        Real.sqrt (max 0
          (((p.days.getD (i + 1) default).day - t) * (t - (p.days.getD i default).day) /
              ((p.days.getD (i + 1) default).day - (p.days.getD i default).day) * p.w2 +
            ((((p.days.getD (i + 1) default).day - t) ^ 2 *
                ((p.days.getD i default).uncertainty * (p.days.getD i default).uncertainty) +
              2 * (((p.days.getD (i + 1) default).day - t)) * ((t - (p.days.getD i default).day)) * 0 +
              ((t - (p.days.getD i default).day)) ^ 2 *
                ((p.days.getD (i + 1) default).uncertainty *
                  (p.days.getD (i + 1) default).uncertainty)) /
              ((p.days.getD (i + 1) default).day - (p.days.getD i default).day) ^ 2)))) := by
    unfold Player.interpolateRating
    rw [if_neg hn0, if_neg hn1, hfind]
  have ha : 0 < (p.days.getD (i + 1) default).day - t := by linarith
  have hb : 0 < t - (p.days.getD i default).day := by linarith
  have hc : 0 < (p.days.getD (i + 1) default).day - (p.days.getD i default).day := by linarith
  have hVnn : 0 ≤
      ((p.days.getD (i + 1) default).day - t) * (t - (p.days.getD i default).day) /
          ((p.days.getD (i + 1) default).day - (p.days.getD i default).day) * p.w2 +
        ((((p.days.getD (i + 1) default).day - t) ^ 2 *
            ((p.days.getD i default).uncertainty * (p.days.getD i default).uncertainty) +
          2 * (((p.days.getD (i + 1) default).day - t)) * ((t - (p.days.getD i default).day)) * 0 +
          ((t - (p.days.getD i default).day)) ^ 2 *
            ((p.days.getD (i + 1) default).uncertainty *
              (p.days.getD (i + 1) default).uncertainty)) /
          ((p.days.getD (i + 1) default).day - (p.days.getD i default).day) ^ 2) := by
    apply add_nonneg
    · exact mul_nonneg (div_nonneg (mul_nonneg ha.le hb.le) hc.le) hw2
    · apply div_nonneg _ (sq_nonneg _)
      apply add_nonneg
      · apply add_nonneg
        · exact mul_nonneg (sq_nonneg _) (mul_self_nonneg _)
        · rw [mul_zero]
      · exact mul_nonneg (sq_nonneg _) (mul_self_nonneg _)
  have hvar : (p.interpolateRating t).2 ^ 2 =
      ((p.days.getD (i + 1) default).day - t) * (t - (p.days.getD i default).day) /
        ((p.days.getD (i + 1) default).day - (p.days.getD i default).day) * p.w2 +
      (((p.days.getD (i + 1) default).day - t) ^ 2 *
          (p.days.getD i default).uncertainty ^ 2 +
        (t - (p.days.getD i default).day) ^ 2 *
          (p.days.getD (i + 1) default).uncertainty ^ 2) /
        ((p.days.getD (i + 1) default).day - (p.days.getD i default).day) ^ 2 := by
    rw [hval]
    show Real.sqrt (max 0 _) ^ 2 = _
    rw [max_eq_right hVnn, Real.sq_sqrt hVnn]
    ring
  refine ⟨by rw [hval], hvar, ?_⟩
  intro hdelta hu1 hu2 ht
  rw [hvar, hdelta, hu1, hu2, ht]
  ring

/-- C7 witness: the interpolation contract at the explicit two-day player,
queried at the midpoint t = 1/2. -/
theorem interpolateRating_between_days_witness :
    (interpPlayer.interpolateRating (1 / 2)).1 =
      ((interpPlayer.days.getD 0 default).r *
          ((interpPlayer.days.getD 1 default).day - 1 / 2) +
        (interpPlayer.days.getD 1 default).r *
          (1 / 2 - (interpPlayer.days.getD 0 default).day)) /
        ((interpPlayer.days.getD 1 default).day - (interpPlayer.days.getD 0 default).day) *
        400 / Real.log 10 ∧
    (interpPlayer.interpolateRating (1 / 2)).2 ^ 2 =
      ((interpPlayer.days.getD 1 default).day - 1 / 2) *
        (1 / 2 - (interpPlayer.days.getD 0 default).day) /
        ((interpPlayer.days.getD 1 default).day - (interpPlayer.days.getD 0 default).day) *
        interpPlayer.w2 +
      (((interpPlayer.days.getD 1 default).day - 1 / 2) ^ 2 *
          (interpPlayer.days.getD 0 default).uncertainty ^ 2 +
        (1 / 2 - (interpPlayer.days.getD 0 default).day) ^ 2 *
          (interpPlayer.days.getD 1 default).uncertainty ^ 2) /
        ((interpPlayer.days.getD 1 default).day -
          (interpPlayer.days.getD 0 default).day) ^ 2 ∧
    ((interpPlayer.days.getD 1 default).day = (interpPlayer.days.getD 0 default).day + 1 →
      (interpPlayer.days.getD 0 default).uncertainty = 0 →
      (interpPlayer.days.getD 1 default).uncertainty = 0 →
      (1 : ℝ) / 2 = (interpPlayer.days.getD 0 default).day + 1 / 2 →
      (interpPlayer.interpolateRating (1 / 2)).2 ^ 2 = 1 / 4 * interpPlayer.w2) :=
  interpolateRating_between_days interpPlayer 0 (1 / 2)
    (by norm_num [interpPlayer, List.pairwise_cons])
    (by norm_num [interpPlayer])
    (by norm_num [interpPlayer])
    (by norm_num [interpPlayer])
    (by norm_num [interpPlayer])

/-! ### C8 -/

lemma logLikelihoodSecondDerivative_nonpos (pd : PlayerDay)
    (hw : ∀ x ∈ pd.wonOtherGammas, 0 ≤ x) (hl : ∀ x ∈ pd.lostOtherGammas, 0 ≤ x) :
    pd.logLikelihoodSecondDerivative ≤ 0 := by
  unfold PlayerDay.logLikelihoodSecondDerivative
  have hsum : 0 ≤ ((pd.wonGameTerms ++ pd.lostGameTerms).map
      (fun t => t.c * t.d / (t.c * pd.gamma + t.d) ^ 2)).sum := by
    apply List.sum_nonneg
    intro x hx
    rw [List.mem_map] at hx
    obtain ⟨tm, htm, rfl⟩ := hx
    have hcd : 0 ≤ tm.c * tm.d := by
      rw [List.mem_append] at htm
      rcases htm with hmem | hmem
      · unfold PlayerDay.wonGameTerms at hmem
        rw [List.mem_append] at hmem
        rcases hmem with hmem | hmem
        · rw [List.mem_map] at hmem
          obtain ⟨og, hog, rfl⟩ := hmem
          simpa using hw og hog
        · rcases hfd : pd.isFirstDay with _ | _ <;> rw [hfd] at hmem
          · simp at hmem
          · simp at hmem
            subst hmem
            norm_num
      · unfold PlayerDay.lostGameTerms at hmem
        rw [List.mem_append] at hmem
        rcases hmem with hmem | hmem
        · rw [List.mem_map] at hmem
          obtain ⟨og, hog, rfl⟩ := hmem
          simpa using hl og hog
        · rcases hfd : pd.isFirstDay with _ | _ <;> rw [hfd] at hmem
          · simp at hmem
          · simp at hmem
            subst hmem
            norm_num
    exact div_nonneg hcd (sq_nonneg _)
  have hg : 0 ≤ pd.gamma := (Real.exp_pos _).le
  have := mul_nonneg hg hsum
  linarith

lemma hEntry_dominant (p : Player) (hw2 : 0 < p.w2)
    (hdist : ∀ i, i + 1 < p.days.length →
      (p.days.getD i default).day ≠ (p.days.getD (i + 1) default).day)
    (hgam : ∀ d ∈ p.days,
      (∀ x ∈ d.wonOtherGammas, 0 ≤ x) ∧ (∀ x ∈ d.lostOtherGammas, 0 ≤ x)) :
    ∀ i, i < p.days.length →
      (if 0 < i then |p.hEntry i (i - 1)| else 0) +
        (if i + 1 < p.days.length then |p.hEntry i (i + 1)| else 0) < |p.hEntry i i| := by
  intro i hi
  have hsig : ∀ j, j + 1 < p.days.length → 0 < p.computeSigma2.getD j 0 := by
    intro j hj
    rw [computeSigma2_getD p j hj]
    have hne : (p.days.getD (j + 1) default).day - (p.days.getD j default).day ≠ 0 :=
      sub_ne_zero_of_ne (fun hne2 => hdist j hj hne2.symm)
    exact mul_pos (abs_pos.mpr hne) hw2
  have hd2 : (p.days.getD i default).logLikelihoodSecondDerivative ≤ 0 := by
    have hmem : p.days.getD i default ∈ p.days := by
      rw [List.getD_eq_getElem _ _ hi]
      exact List.getElem_mem _
    exact logLikelihoodSecondDerivative_nonpos _ (hgam _ hmem).1 (hgam _ hmem).2
  have e_diag : p.hEntry i i =
      (p.days.getD i default).logLikelihoodSecondDerivative +
        ((if i + 1 < p.days.length then -(1 / p.computeSigma2.getD i 0) else 0) +
          (if 0 < i then -(1 / p.computeSigma2.getD (i - 1) 0) else 0)) - 0.001 := by
    unfold Player.hEntry hessianEntry
    rw [if_pos rfl]
    simp only [show (i < p.days.length - 1) ↔ (i + 1 < p.days.length) from by omega]
  by_cases h0 : 0 < i <;> by_cases hc : i + 1 < p.days.length
  · have e_up : p.hEntry i (i + 1) = 1 / p.computeSigma2.getD i 0 := by
      unfold Player.hEntry hessianEntry
      rw [if_neg (by omega), if_pos rfl]
    have e_low : p.hEntry i (i - 1) = 1 / p.computeSigma2.getD (i - 1) 0 := by
      unfold Player.hEntry hessianEntry
      rw [if_neg (by omega), if_neg (by omega), if_pos (by omega)]
    have hσi : 0 < p.computeSigma2.getD i 0 := hsig i hc
    have hσm : 0 < p.computeSigma2.getD (i - 1) 0 := by
      have := hsig (i - 1) (by omega)
      simpa using this
    rw [if_pos h0, if_pos hc, e_up, e_low, abs_of_pos (by positivity),
      abs_of_pos (by positivity)]
    have hdiagneg : p.hEntry i i < 0 := by
      rw [e_diag, if_pos hc, if_pos h0]
      have hii : 0 < 1 / p.computeSigma2.getD i 0 := by positivity
      have him : 0 < 1 / p.computeSigma2.getD (i - 1) 0 := by positivity
      linarith
    rw [abs_of_neg hdiagneg, e_diag, if_pos hc, if_pos h0]
    linarith
  · have e_low : p.hEntry i (i - 1) = 1 / p.computeSigma2.getD (i - 1) 0 := by
      unfold Player.hEntry hessianEntry
      rw [if_neg (by omega), if_neg (by omega), if_pos (by omega)]
    have hσm : 0 < p.computeSigma2.getD (i - 1) 0 := by
      have := hsig (i - 1) (by omega)
      simpa using this
    rw [if_pos h0, if_neg hc, e_low, abs_of_pos (by positivity)]
    have hdiagneg : p.hEntry i i < 0 := by
      rw [e_diag, if_neg hc, if_pos h0]
      have him : 0 < 1 / p.computeSigma2.getD (i - 1) 0 := by positivity
      linarith
    rw [abs_of_neg hdiagneg, e_diag, if_neg hc, if_pos h0]
    linarith
  · have e_up : p.hEntry i (i + 1) = 1 / p.computeSigma2.getD i 0 := by
      unfold Player.hEntry hessianEntry
      rw [if_neg (by omega), if_pos rfl]
    have hσi : 0 < p.computeSigma2.getD i 0 := hsig i hc
    rw [if_neg h0, if_pos hc, e_up, abs_of_pos (by positivity)]
    have hdiagneg : p.hEntry i i < 0 := by
      rw [e_diag, if_pos hc, if_neg h0]
      have hii : 0 < 1 / p.computeSigma2.getD i 0 := by positivity
      linarith
    rw [abs_of_neg hdiagneg, e_diag, if_pos hc, if_neg h0]
    linarith
  · rw [if_neg h0, if_neg hc]
    have hdiagneg : p.hEntry i i < 0 := by
      rw [e_diag, if_neg hc, if_neg h0]
      linarith
    rw [abs_of_neg hdiagneg]
    linarith

/-- C8: after the covariance pass of `updateUncertainty`, every day's
uncertainty sqrt |v[i]| is strictly positive (and, in exact real arithmetic,
trivially finite), because strict diagonal dominance of the regularized
Hessian keeps every pivot and every v[i] away from zero. -/
theorem updateUncertainty_positive (p : Player) (h1 : 1 ≤ p.days.length) (hw2 : 0 < p.w2)
    (hdist : ∀ i, i + 1 < p.days.length →
      (p.days.getD i default).day ≠ (p.days.getD (i + 1) default).day)
    (hgam : ∀ d ∈ p.days,
      (∀ x ∈ d.wonOtherGammas, 0 ≤ x) ∧ (∀ x ∈ d.lostOtherGammas, 0 ≤ x)) :
    ∀ i, i < p.days.length → 0 < (p.updateUncertainty.days.getD i default).uncertainty := by
  intro i hi
  have hupd : p.updateUncertainty.days =
      p.days.mapIdx (fun i d => { d with uncertainty := Real.sqrt |p.covV i| }) := by
    unfold Player.updateUncertainty
    rw [if_pos (by omega)]
  rw [hupd, getD_mapIdx _ _ _ hi]
  show 0 < Real.sqrt |p.covV i|
  apply Real.sqrt_pos.mpr
  apply abs_pos.mpr
  have hdom := hEntry_dominant p hw2 hdist hgam
  have hlu := luD_dominant p.hEntry p.days.length hdom
  have hrev := revD_dominant p.hEntry p.days.length h1 hdom
  by_cases hlast : i = p.days.length - 1
  · have hluNZ : luD p.hEntry (p.days.length - 1) ≠ 0 := by
      have := hlu (p.days.length - 1) (by omega)
      rw [if_neg (by omega)] at this
      exact fun hz => by rw [hz] at this; simp at this
    unfold Player.covV
    rw [if_pos hlast]
    exact div_ne_zero (by norm_num) hluNZ
  · have hilt : i + 1 < p.days.length := by omega
    have hdd := hlu i (by omega)
    rw [if_pos hilt] at hdd
    have hdp := hrev (i + 1) hilt
    rw [if_pos (by omega)] at hdp
    simp only [Nat.add_sub_cancel] at hdp
    have hdpNZ : revD p.hEntry p.days.length (i + 1) ≠ 0 := by
      have h0le : (0 : ℝ) ≤ |p.hEntry (i + 1) i| := abs_nonneg _
      exact fun hz => by rw [hz] at hdp; simp at hdp; linarith
    have hprod : |p.hEntry i (i + 1)| * |p.hEntry (i + 1) i| <
        |luD p.hEntry i| * |revD p.hEntry p.days.length (i + 1)| := by
      calc |p.hEntry i (i + 1)| * |p.hEntry (i + 1) i|
          ≤ |p.hEntry i (i + 1)| * |revD p.hEntry p.days.length (i + 1)| :=
            mul_le_mul_of_nonneg_left hdp.le (abs_nonneg _)
        _ < |luD p.hEntry i| * |revD p.hEntry p.days.length (i + 1)| := by
            apply mul_lt_mul_of_pos_right hdd
            exact lt_of_le_of_lt (abs_nonneg _) hdp
    have hdenNZ : p.hEntry i (i + 1) * p.hEntry (i + 1) i -
        luD p.hEntry i * revD p.hEntry p.days.length (i + 1) ≠ 0 := by
      intro heq
      have heq2 : p.hEntry i (i + 1) * p.hEntry (i + 1) i =
          luD p.hEntry i * revD p.hEntry p.days.length (i + 1) := by linarith [heq]
      have habs : |p.hEntry i (i + 1) * p.hEntry (i + 1) i| =
          |luD p.hEntry i * revD p.hEntry p.days.length (i + 1)| := by rw [heq2]
      rw [abs_mul, abs_mul] at habs
      rw [habs] at hprod
      exact lt_irrefl _ hprod
    unfold Player.covV
    rw [if_neg hlast]
    exact div_ne_zero hdpNZ hdenNZ

/-- C8 witness: positivity of the refreshed uncertainty at the explicit
two-day player. -/
theorem updateUncertainty_positive_witness :
    0 < (twoDayPlayer.updateUncertainty.days.getD 0 default).uncertainty :=
  updateUncertainty_positive twoDayPlayer (by norm_num [twoDayPlayer])
    (by norm_num [twoDayPlayer])
    (by
      intro i hi
      simp only [twoDayPlayer, List.length_cons, List.length_nil] at hi
      have hieq : i = 0 := by omega
      subst hieq
      norm_num [twoDayPlayer])
    (by
      intro d hd
      norm_num [twoDayPlayer] at hd
      rcases hd with h | h <;> subst h <;> norm_num)
    0 (by norm_num [twoDayPlayer])

end
